import Mathlib

/-!
Verification of the per-component metric computation and aggregation engine of
`network_metrics_package` (files `metrics/utils.py` and `metrics/generator.py`).

Numeric cells are modelled over the rationals: a numpy float cell is either a
finite number, positive/negative infinity, or NaN (the missing marker).
Arrays are Lean lists; the metric algorithms themselves (graph-tool calls) are
external black boxes and are modelled by their possible outcomes.
-/

/-- A raw numeric cell as held in a numpy float array: a finite value,
positive or negative infinity, or NaN (the missing marker). -/
inductive Val where
  | fin (q : ℚ)
  | posInf
  | negInf
  | nan
deriving DecidableEq, Repr

/-- Sanitization of one cell (`utils.py` line 19, `a[~np.isfinite(a)] = np.nan`):
a finite value survives, any non-finite cell (either infinity, or NaN itself)
becomes the missing marker, here `none`. -/
def sanitizeVal : Val → Option ℚ
  | .fin q => some q
  | .posInf => none
  | .negInf => none
  | .nan => none

/-- Re-embedding of a sanitized cell into a raw float cell: a sanitized array
holds only finite values and NaN, never an infinity. -/
def optToVal : Option ℚ → Val
  | some q => .fin q
  | none => .nan

/-- `sanitize_array` (`utils.py` lines 6-20): convert the input to a float
array and replace every non-finite entry by NaN.  The duck-typed container
unwrapping (`.get_array()` / `.a`) is identity on a plain array and is
resolved before this model is entered. -/
def sanitize_array (l : List Val) : List (Option ℚ) := l.map sanitizeVal

/-- The valid (non-missing) values of a sanitized array, in order. -/
def validVals (a : List (Option ℚ)) : List ℚ := a.filterMap id

/-- Minimum of the valid values (`np.nanmin`); 0 on an empty list (unused case). -/
def listMin : List ℚ → ℚ
  | [] => 0
  | v :: vs => vs.foldl min v

/-- Maximum of the valid values (`np.nanmax`); 0 on an empty list (unused case). -/
def listMax : List ℚ → ℚ
  | [] => 0
  | v :: vs => vs.foldl max v

/-- The body of `minmax_normalize` after sanitization (`utils.py` lines 25-34):
if no entry is valid return the array unchanged; if all valid entries are equal
set every valid entry to 0; otherwise rescale every valid entry by
`(x - mn) / (mx - mn)`.  Missing entries are never touched. -/
def minmaxCore (a : List (Option ℚ)) : List (Option ℚ) :=
  let valid := validVals a
  if valid = [] then a
  else
    let mn := listMin valid
    let mx := listMax valid
    if mx = mn then a.map (Option.map fun _ => 0)
    else a.map (Option.map fun x => (x - mn) / (mx - mn))

/-- `minmax_normalize` (`utils.py` lines 22-34): sanitize, then min-max rescale
preserving NaN entries. -/
def minmax_normalize (l : List Val) : List (Option ℚ) := minmaxCore (sanitize_array l)

/-- The length-fixup step of `compute_and_save_metrics`
(`generator.py` lines 160-163): if a column's length differs from the vertex
count `N`, allocate an all-NaN length-`N` array and copy the first
`min (length) N` entries into it. -/
def fixLength (N : ℕ) (v : List (Option ℚ)) : List (Option ℚ) :=
  if v.length = N then v
  else v.take (min v.length N) ++ List.replicate (N - min v.length N) none

/-- The resolved outcome of one (metric, component) invocation
(`generator.py` lines 42-61).  The invocation itself — calling the black-box
algorithm on the component view with a fresh random edge-weight assignment,
retrying without the weight on a `TypeError` — is abstracted into this per-label
outcome: `failure` is an exception or a `None` result (lines 44-54);
`prop` is a result carrying a vertex-property accessor `.a`, indexed by global
vertex id, possibly selected as the last array-like item of a returned tuple
(lines 57-65); `seq` is an unstructured numeric sequence spliced positionally
(lines 66-71). -/
inductive CompResult where
  | failure
  | prop (g : ℕ → Val)
  | seq (tmp : List Val)

/-- `np.where(comp_map == comp_label)[0]` (`generator.py` line 25): the global
indices of the vertices of component `c`, in increasing order. -/
def component_vids (comp : List ℕ) (c : ℕ) : List ℕ :=
  (List.range comp.length).filter fun i => comp.getD i 0 = c

/-- `np.unique(comp_map)` (`generator.py` line 17): the distinct component
labels present, in increasing order. -/
def uniqLabels (comp : List ℕ) : List ℕ :=
  (List.range (comp.foldr max 0 + 1)).filter fun c => c ∈ comp

/-- The property-result write-back loop (`generator.py` lines 63-65):
`for v in G_sub.vertices(): arr[int(v)] = float(res[v])`. -/
def writeProp (g : ℕ → Val) (vids : List ℕ) (arr : List Val) : List Val :=
  vids.foldl (fun a v => a.set v (g v)) arr

/-- The sequence-result write-back loop (`generator.py` lines 66-71):
`for i, vid in enumerate(idxs): if i < tmp.size: arr[vid] = float(tmp[i])`;
`k` is the running enumeration counter. -/
def writeSeq (tmp : List Val) : ℕ → List ℕ → List Val → List Val
  | _, [], arr => arr
  | k, v :: vs, arr =>
      writeSeq tmp (k + 1) vs (if k < tmp.length then arr.set v (tmp.getD k .nan) else arr)

/-- One iteration of the component loop of `_metric_per_component_mapped`
(`generator.py` lines 23-71): skip an empty vertex set, leave NaNs on failure,
otherwise write the component's results into `arr`. -/
def compStep (comp : List ℕ) (f : ℕ → CompResult) (arr : List Val) (c : ℕ) : List Val :=
  if component_vids comp c = [] then arr
  else
    match f c with
    | .failure => arr
    | .prop g => writeProp g (component_vids comp c) arr
    | .seq tmp => writeSeq tmp 0 (component_vids comp c) arr

/-- `_metric_per_component_mapped` (`generator.py` lines 10-73): start from a
full-graph array of NaNs and run the metric on every component in label order,
mapping results back into the full-graph index space.  `comp` is the
per-vertex component label array (one entry per vertex of `G`), and `f` gives
the resolved invocation outcome for each component label. -/
def metric_per_component_mapped (comp : List ℕ) (f : ℕ → CompResult) : List Val :=
  (uniqLabels comp).foldl (compStep comp f) (List.replicate comp.length Val.nan)

/-- An item of the tuple returned by the hub/authority algorithm: either an
array-like vertex property (`hasattr(x, "a")`) or some other object. -/
inductive HitsItem where
  | arr (l : List Val)
  | nonArr

/-- `hasattr(x, "a")` on a tuple item. -/
def HitsItem.isArr : HitsItem → Bool
  | .arr _ => true
  | .nonArr => false

/-- The result of `gt.hits(G)`: either a tuple of items or a single
array-like value. -/
inductive HitsRes where
  | tup (items : List HitsItem)
  | single (l : List Val)

/-- The `hits_authority` column before the final fixup (`generator.py`
lines 118-131): the first array-like item of the tuple, sanitized; an
all-NaN column if there is none or the call raised; for a non-tuple result,
the sanitized value itself. -/
def hitsAuthority (N : ℕ) : Except Unit HitsRes → List (Option ℚ)
  | .error _ => List.replicate N none
  | .ok (.single l) => sanitize_array l
  | .ok (.tup items) =>
      match items.find? HitsItem.isArr with
      | some (.arr l) => sanitize_array l
      | _ => List.replicate N none

/-- The `hits_hub` column before the final fixup (`generator.py`
lines 118-132): the last array-like item of the tuple (first of the reversed
tuple), sanitized; an all-NaN column if there is none or the call raised. -/
def hitsHub (N : ℕ) : Except Unit HitsRes → List (Option ℚ)
  | .error _ => List.replicate N none
  | .ok (.single l) => sanitize_array l
  | .ok (.tup items) =>
      match items.reverse.find? HitsItem.isArr with
      | some (.arr l) => sanitize_array l
      | _ => List.replicate N none

/-- The graph as the core sees it: a stable 0-based vertex index space
together with the per-vertex component labeling produced by
`gt.label_components` (one label per vertex). -/
structure Graph where
  comp : List ℕ

/-- `G.num_vertices()`. -/
def Graph.numVertices (g : Graph) : ℕ := g.comp.length

/-- The outcomes of the black-box graph-tool algorithm invocations made by
`compute_and_save_metrics`: for the whole-graph metrics, the (sanitizable)
returned array or a raised exception; for the per-component metrics, either a
per-component-label resolved outcome or an exception raised outside the
per-component loop; for hub/authority, the returned tuple or an exception. -/
structure AlgOutcomes where
  pagerank : Except Unit (List Val)
  betweenness : Except Unit (List Val)
  closeness : Except Unit (List Val)
  eigenvector : Except Unit (ℕ → CompResult)
  katz : Except Unit (ℕ → CompResult)
  hits : Except Unit HitsRes
  eigentrust : Except Unit (ℕ → CompResult)
  trust_transitivity : Except Unit (ℕ → CompResult)

/-- A whole-graph metric column before the final fixup (`generator.py`
lines 85-102): the sanitized result, or a full-length NaN column when the
call raised. -/
def directCol (N : ℕ) : Except Unit (List Val) → List Val
  | .ok l => (sanitize_array l).map optToVal
  | .error _ => List.replicate N .nan

/-- A per-component metric column before the final fixup (`generator.py`
lines 104-116, 134-139, 150-155): the runner's result, or a full-length NaN
column when the runner itself raised. -/
def runnerCol (comp : List ℕ) : Except Unit (ℕ → CompResult) → List Val
  | .ok f => metric_per_component_mapped comp f
  | .error _ => List.replicate comp.length .nan

/-- The final per-column steps of `compute_and_save_metrics`
(`generator.py` lines 157-167): re-sanitize, fix the length to `N`, and
min-max normalize when `normalize` is set. -/
def finalizeCol (N : ℕ) (normalize : Bool) (col : List Val) : List (Option ℚ) :=
  if normalize then minmax_normalize ((fixLength N (sanitize_array col)).map optToVal)
  else fixLength N (sanitize_array col)

/-- The metric names of `compute_and_save_metrics`, in insertion order. -/
def metricNames : List String :=
  ["pagerank", "betweenness", "closeness", "eigenvector", "katz",
   "hits_authority", "hits_hub", "eigentrust", "trust_transitivity"]

/-- The `metrics` dict as populated inside the `openmp_context` block
(`generator.py` lines 84-155), before the final fixup and normalization. -/
def rawMetrics (g : Graph) (o : AlgOutcomes) : List (String × List Val) :=
  [("pagerank", directCol g.numVertices o.pagerank),
   ("betweenness", directCol g.numVertices o.betweenness),
   ("closeness", directCol g.numVertices o.closeness),
   ("eigenvector", runnerCol g.comp o.eigenvector),
   ("katz", runnerCol g.comp o.katz),
   ("hits_authority", (hitsAuthority g.numVertices o.hits).map optToVal),
   ("hits_hub", (hitsHub g.numVertices o.hits).map optToVal),
   ("eigentrust", runnerCol g.comp o.eigentrust),
   ("trust_transitivity", runnerCol g.comp o.trust_transitivity)]

/-- `compute_and_save_metrics` (`generator.py` lines 75-179), restricted to the
returned metrics mapping (file persistence is an external side effect): every
raw column is re-sanitized, length-fixed to `N` and, when `normalize` is set,
min-max normalized. -/
def compute_and_save_metrics (g : Graph) (normalize : Bool) (o : AlgOutcomes) :
    List (String × List (Option ℚ)) :=
  (rawMetrics g o).map fun kv => (kv.1, finalizeCol g.numVertices normalize kv.2)

/-- The black-box `gt.trust_transitivity` call as `trust_call` sees it
(`generator.py` lines 141-148): either the signature accepts the `source`
keyword (result depends on the chosen source vertex), or it raises a
`TypeError` on it and the retry without a source is used. -/
structure TrustTransitivity where
  acceptsSource : Bool
  withSource : ℕ → List Val
  withoutSource : List Val

/-- `trust_call` (`generator.py` lines 141-148): on an empty component view,
return a fresh (zero-length, per-visible-vertex) vertex property without
calling the algorithm; otherwise call it with the first vertex of the
component's iteration order as the source, falling back to a source-less call
on a `TypeError`. -/
def trust_call (vs : List ℕ) (alg : TrustTransitivity) : List Val :=
  match vs with
  | [] => []
  | v :: _ => if alg.acceptsSource then alg.withSource v else alg.withoutSource

/-- All-failing algorithm outcomes (every invocation raises). -/
def allFailOutcomes : AlgOutcomes :=
  ⟨.error (), .error (), .error (), .error (), .error (), .error (), .error (), .error ()⟩

/-- A concrete per-component behavior: the invocation on component 1 fails,
every other component yields a vertex property. -/
def exampleFail (c : ℕ) : CompResult :=
  if c = 1 then CompResult.failure else CompResult.prop fun v => Val.fin v

/-- `exampleFail` with component 1's outcome replaced by a success. -/
def exampleFail' : ℕ → CompResult :=
  Function.update exampleFail 1 (CompResult.prop fun _ => Val.fin 7)

/-- A concrete per-component behavior returning an unstructured sequence of
length 2 for every component. -/
def exampleSeq : ℕ → CompResult := fun _ => CompResult.seq [Val.fin 1, Val.fin 2]

/-- A 6-vertex graph forming a single connected component. -/
def sixGraph : Graph := ⟨[0, 0, 0, 0, 0, 0]⟩

/-- A concrete 6-entry authority array. -/
def hitsA : List Val :=
  [Val.fin 0, Val.fin 1, Val.fin 2, Val.fin 3, Val.fin 4, Val.fin 5]

/-- A concrete 6-entry hub array. -/
def hitsB : List Val :=
  [Val.fin 5, Val.nan, Val.fin 3, Val.fin 2, Val.fin 1, Val.fin 0]

/-- Outcomes where the hub/authority call returns a pair of per-vertex
arrays and every other call raises. -/
def hitsOutcomes : AlgOutcomes :=
  ⟨.error (), .error (), .error (), .error (), .error (),
   .ok (HitsRes.tup [HitsItem.arr hitsA, HitsItem.arr hitsB]), .error (), .error ()⟩

/-- A concrete trust-propagation black box that accepts a source vertex. -/
def trustAlg : TrustTransitivity :=
  ⟨true, fun s => [Val.fin s], [Val.nan]⟩

-- ### Basic lemmas about sanitization and normalization

theorem sanitizeVal_optToVal (o : Option ℚ) : sanitizeVal (optToVal o) = o := by
  cases o <;> rfl

theorem sanitize_array_optToVal (a : List (Option ℚ)) :
    sanitize_array (a.map optToVal) = a := by
  simp [sanitize_array, List.map_map, Function.comp_def, sanitizeVal_optToVal]

theorem length_sanitize_array (l : List Val) :
    (sanitize_array l).length = l.length := by
  simp [sanitize_array]

theorem length_minmaxCore (a : List (Option ℚ)) :
    (minmaxCore a).length = a.length := by
  unfold minmaxCore
  dsimp only
  split
  · rfl
  · split <;> simp

theorem length_minmax_normalize (l : List Val) :
    (minmax_normalize l).length = l.length := by
  rw [minmax_normalize, length_minmaxCore, length_sanitize_array]

theorem length_fixLength (N : ℕ) (v : List (Option ℚ)) :
    (fixLength N v).length = N := by
  unfold fixLength
  split
  · assumption
  · simp [Nat.min_le_right v.length N, Nat.add_sub_cancel' (Nat.min_le_right v.length N)]

theorem fixLength_of_length_eq {N : ℕ} {v : List (Option ℚ)} (h : v.length = N) :
    fixLength N v = v := by
  unfold fixLength
  rw [if_pos h]

-- ### Order lemmas for listMin / listMax

theorem foldl_min_le_init (l : List ℚ) (v : ℚ) : l.foldl min v ≤ v := by
  induction l generalizing v with
  | nil => exact le_refl v
  | cons x xs ih => exact le_trans (ih (min v x)) (min_le_left v x)

theorem foldl_min_le_mem (l : List ℚ) (v x : ℚ) (hx : x ∈ l) : l.foldl min v ≤ x := by
  induction l generalizing v with
  | nil => cases hx
  | cons y ys ih =>
      rcases List.mem_cons.1 hx with rfl | hx
      · exact le_trans (foldl_min_le_init ys (min v x)) (min_le_right v x)
      · exact ih (min v y) hx

theorem foldl_min_eq_init_or_mem (l : List ℚ) (v : ℚ) :
    l.foldl min v = v ∨ l.foldl min v ∈ l := by
  induction l generalizing v with
  | nil => exact Or.inl rfl
  | cons x xs ih =>
      rcases ih (min v x) with h | h
      · rcases min_cases v x with ⟨he, _⟩ | ⟨he, _⟩
        · exact Or.inl (by rw [List.foldl_cons, h, he])
        · exact Or.inr (by rw [List.foldl_cons, h, he]; exact List.mem_cons_self x xs)
      · exact Or.inr (List.mem_cons_of_mem x h)

theorem init_le_foldl_max (l : List ℚ) (v : ℚ) : v ≤ l.foldl max v := by
  induction l generalizing v with
  | nil => exact le_refl v
  | cons x xs ih => exact le_trans (le_max_left v x) (ih (max v x))

theorem mem_le_foldl_max (l : List ℚ) (v x : ℚ) (hx : x ∈ l) : x ≤ l.foldl max v := by
  induction l generalizing v with
  | nil => cases hx
  | cons y ys ih =>
      rcases List.mem_cons.1 hx with rfl | hx
      · exact le_trans (le_max_right v x) (init_le_foldl_max ys (max v x))
      · exact ih (max v y) hx

theorem foldl_max_eq_init_or_mem (l : List ℚ) (v : ℚ) :
    l.foldl max v = v ∨ l.foldl max v ∈ l := by
  induction l generalizing v with
  | nil => exact Or.inl rfl
  | cons x xs ih =>
      rcases ih (max v x) with h | h
      · rcases max_cases v x with ⟨he, _⟩ | ⟨he, _⟩
        · exact Or.inl (by rw [List.foldl_cons, h, he])
        · exact Or.inr (by rw [List.foldl_cons, h, he]; exact List.mem_cons_self x xs)
      · exact Or.inr (List.mem_cons_of_mem x h)

theorem listMin_le {l : List ℚ} {x : ℚ} (hx : x ∈ l) : listMin l ≤ x := by
  cases l with
  | nil => cases hx
  | cons v vs =>
      rcases List.mem_cons.1 hx with rfl | hx
      · exact foldl_min_le_init vs x
      · exact foldl_min_le_mem vs v x hx

theorem le_listMax {l : List ℚ} {x : ℚ} (hx : x ∈ l) : x ≤ listMax l := by
  cases l with
  | nil => cases hx
  | cons v vs =>
      rcases List.mem_cons.1 hx with rfl | hx
      · exact init_le_foldl_max vs x
      · exact mem_le_foldl_max vs v x hx

theorem listMin_mem {l : List ℚ} (h : l ≠ []) : listMin l ∈ l := by
  cases l with
  | nil => exact absurd rfl h
  | cons v vs =>
      rcases foldl_min_eq_init_or_mem vs v with he | he
      · rw [listMin, he]; exact List.mem_cons_self v vs
      · exact List.mem_cons_of_mem v he

theorem listMax_mem {l : List ℚ} (h : l ≠ []) : listMax l ∈ l := by
  cases l with
  | nil => exact absurd rfl h
  | cons v vs =>
      rcases foldl_max_eq_init_or_mem vs v with he | he
      · rw [listMax, he]; exact List.mem_cons_self v vs
      · exact List.mem_cons_of_mem v he

-- ### validVals and branch lemmas for minmaxCore

theorem validVals_mem_iff {a : List (Option ℚ)} {q : ℚ} :
    q ∈ validVals a ↔ some q ∈ a := by
  simp [validVals, List.mem_filterMap]

theorem validVals_map (f : ℚ → ℚ) (a : List (Option ℚ)) :
    validVals (a.map (Option.map f)) = (validVals a).map f := by
  induction a with
  | nil => rfl
  | cons o t ih => cases o <;> simp [validVals, List.filterMap_cons] at ih ⊢ <;> exact ih

theorem minmaxCore_of_empty {a : List (Option ℚ)} (h : validVals a = []) :
    minmaxCore a = a := by
  unfold minmaxCore
  simp [h]

theorem minmaxCore_of_const {a : List (Option ℚ)} (h : validVals a ≠ [])
    (he : listMax (validVals a) = listMin (validVals a)) :
    minmaxCore a = a.map (Option.map fun _ => 0) := by
  unfold minmaxCore
  simp only [if_neg h, if_pos he]

theorem minmaxCore_of_ne {a : List (Option ℚ)} (h : validVals a ≠ [])
    (he : listMax (validVals a) ≠ listMin (validVals a)) :
    minmaxCore a =
      a.map (Option.map fun x =>
        (x - listMin (validVals a)) / (listMax (validVals a) - listMin (validVals a))) := by
  unfold minmaxCore
  simp only [if_neg h, if_neg he]

theorem listMin_le_listMax {l : List ℚ} (h : l ≠ []) : listMin l ≤ listMax l :=
  le_trans (listMin_le (listMax_mem h)) (le_refl _)

theorem foldl_min_map {f : ℚ → ℚ} (hf : Monotone f) (l : List ℚ) (v : ℚ) :
    (l.map f).foldl min (f v) = f (l.foldl min v) := by
  induction l generalizing v with
  | nil => rfl
  | cons x xs ih => simp only [List.map_cons, List.foldl_cons, ← hf.map_min, ih]

theorem foldl_max_map {f : ℚ → ℚ} (hf : Monotone f) (l : List ℚ) (v : ℚ) :
    (l.map f).foldl max (f v) = f (l.foldl max v) := by
  induction l generalizing v with
  | nil => rfl
  | cons x xs ih => simp only [List.map_cons, List.foldl_cons, ← hf.map_max, ih]

theorem listMin_map {f : ℚ → ℚ} (hf : Monotone f) {l : List ℚ} (h : l ≠ []) :
    listMin (l.map f) = f (listMin l) := by
  cases l with
  | nil => exact absurd rfl h
  | cons v vs => simp only [List.map_cons, listMin, foldl_min_map hf]

theorem listMax_map {f : ℚ → ℚ} (hf : Monotone f) {l : List ℚ} (h : l ≠ []) :
    listMax (l.map f) = f (listMax l) := by
  cases l with
  | nil => exact absurd rfl h
  | cons v vs => simp only [List.map_cons, listMax, foldl_max_map hf]

theorem listMin_of_all_eq {l : List ℚ} {q : ℚ} (h : l ≠ []) (hq : ∀ x ∈ l, x = q) :
    listMin l = q :=
  hq _ (listMin_mem h)

theorem listMax_of_all_eq {l : List ℚ} {q : ℚ} (h : l ≠ []) (hq : ∀ x ∈ l, x = q) :
    listMax l = q :=
  hq _ (listMax_mem h)

theorem rescale_monotone {mn mx : ℚ} (h : mn < mx) :
    Monotone fun x : ℚ => (x - mn) / (mx - mn) := by
  intro x y hxy
  exact (div_le_div_iff_of_pos_right (sub_pos.2 h)).2 (sub_le_sub_right hxy mn)

theorem minmaxCore_nonconst {a : List (Option ℚ)} {q r : ℚ} (hq : some q ∈ a)
    (hr : some r ∈ a) (hne : q ≠ r) :
    (minmaxCore a).length = a.length
    ∧ (∀ i : ℕ, a[i]? = some none → (minmaxCore a)[i]? = some none)
    ∧ (0 : ℚ) ∈ validVals (minmaxCore a)
    ∧ (1 : ℚ) ∈ validVals (minmaxCore a)
    ∧ (∀ x ∈ validVals (minmaxCore a), 0 ≤ x ∧ x ≤ 1) := by
  have hqv : q ∈ validVals a := validVals_mem_iff.2 hq
  have hrv : r ∈ validVals a := validVals_mem_iff.2 hr
  have hval : validVals a ≠ [] := by
    intro h
    rw [h] at hqv
    exact absurd hqv (List.not_mem_nil q)
  have hlt : listMin (validVals a) < listMax (validVals a) := by
    rcases lt_or_eq_of_le (listMin_le_listMax hval) with h | h
    · exact h
    · exfalso
      have h1 : q = listMin (validVals a) :=
        le_antisymm (by rw [h]; exact le_listMax hqv) (listMin_le hqv)
      have h2 : r = listMin (validVals a) :=
        le_antisymm (by rw [h]; exact le_listMax hrv) (listMin_le hrv)
      exact hne (h1.trans h2.symm)
  have hne2 : listMax (validVals a) ≠ listMin (validVals a) := ne_of_gt hlt
  have hd : (0 : ℚ) < listMax (validVals a) - listMin (validVals a) := sub_pos.2 hlt
  rw [minmaxCore_of_ne hval hne2]
  refine ⟨by simp, ?_, ?_, ?_, ?_⟩
  · intro i hi
    rw [List.getElem?_map, hi]
    rfl
  · rw [validVals_map]
    exact List.mem_map.2 ⟨listMin (validVals a), listMin_mem hval, by rw [sub_self, zero_div]⟩
  · rw [validVals_map]
    exact List.mem_map.2 ⟨listMax (validVals a), listMax_mem hval, div_self (ne_of_gt hd)⟩
  · rw [validVals_map]
    intro x hx
    rcases List.mem_map.1 hx with ⟨y, hy, rfl⟩
    constructor
    · exact div_nonneg (sub_nonneg.2 (listMin_le hy)) hd.le
    · exact (div_le_one hd).2 (sub_le_sub_right (le_listMax hy) _)

/-- C3: for every array containing at least two distinct finite (non-missing)
values, `minmax_normalize` preserves the length and every missing position,
and over the non-missing entries of the result the minimum is exactly 0 and
the maximum is exactly 1. -/
theorem spec_C3 (l : List Val) (q r : ℚ) (hq : Val.fin q ∈ l) (hr : Val.fin r ∈ l)
    (hne : q ≠ r) :
    (minmax_normalize l).length = l.length
    ∧ (∀ i : ℕ, l[i]? = some Val.nan → (minmax_normalize l)[i]? = some none)
    ∧ (0 : ℚ) ∈ validVals (minmax_normalize l)
    ∧ (1 : ℚ) ∈ validVals (minmax_normalize l)
    ∧ (∀ x ∈ validVals (minmax_normalize l), 0 ≤ x ∧ x ≤ 1) := by
  have hq' : some q ∈ sanitize_array l := List.mem_map_of_mem sanitizeVal hq
  have hr' : some r ∈ sanitize_array l := List.mem_map_of_mem sanitizeVal hr
  obtain ⟨h1, h2, h3, h4, h5⟩ := minmaxCore_nonconst hq' hr' hne
  refine ⟨h1.trans (length_sanitize_array l), ?_, h3, h4, h5⟩
  intro i hi
  apply h2
  rw [sanitize_array, List.getElem?_map, hi]
  rfl

theorem spec_C3_witness :
    Val.fin 0 ∈ [Val.fin 0, Val.nan, Val.fin 2]
    ∧ Val.fin 2 ∈ [Val.fin 0, Val.nan, Val.fin 2]
    ∧ (0 : ℚ) ≠ 2
    ∧ (0 : ℚ) ∈ validVals (minmax_normalize [Val.fin 0, Val.nan, Val.fin 2])
    ∧ (1 : ℚ) ∈ validVals (minmax_normalize [Val.fin 0, Val.nan, Val.fin 2])
    ∧ (minmax_normalize [Val.fin 0, Val.nan, Val.fin 2])[1]? = some none :=
  ⟨by decide, by decide, by decide,
   (spec_C3 [Val.fin 0, Val.nan, Val.fin 2] 0 2 (by decide) (by decide) (by decide)).2.2.1,
   (spec_C3 [Val.fin 0, Val.nan, Val.fin 2] 0 2 (by decide) (by decide) (by decide)).2.2.2.1,
   (spec_C3 [Val.fin 0, Val.nan, Val.fin 2] 0 2 (by decide) (by decide) (by decide)).2.1 1
     (by decide)⟩

/-- C4: `minmax_normalize` on an array with no valid entry returns the
(sanitized) array unchanged with every entry missing, and on an array whose
valid entries are all equal maps every valid entry to exactly 0, preserving
which positions are missing; neither case is an error. -/
theorem spec_C4 (l0 l1 : List Val) (q : ℚ)
    (h0 : ∀ v ∈ l0, sanitizeVal v = none)
    (h1 : validVals (sanitize_array l1) ≠ [])
    (h2 : ∀ x ∈ validVals (sanitize_array l1), x = q) :
    (minmax_normalize l0 = sanitize_array l0 ∧ ∀ o ∈ minmax_normalize l0, o = none)
    ∧ (∀ x ∈ validVals (minmax_normalize l1), x = 0)
    ∧ (∀ i : ℕ, (minmax_normalize l1)[i]? = some none ↔ (sanitize_array l1)[i]? = some none) := by
  have hv0 : validVals (sanitize_array l0) = [] := by
    simp only [validVals, List.filterMap_eq_nil_iff, sanitize_array]
    intro o ho
    rcases List.mem_map.1 ho with ⟨v, hv, rfl⟩
    simp [h0 v hv]
  have he0 : minmax_normalize l0 = sanitize_array l0 := minmaxCore_of_empty hv0
  have hmxc : listMax (validVals (sanitize_array l1)) = listMin (validVals (sanitize_array l1)) := by
    rw [listMax_of_all_eq h1 h2, listMin_of_all_eq h1 h2]
  have he1 : minmax_normalize l1 = (sanitize_array l1).map (Option.map fun _ => 0) :=
    minmaxCore_of_const h1 hmxc
  refine ⟨⟨he0, ?_⟩, ?_, ?_⟩
  · rw [he0]
    intro o ho
    rcases List.mem_map.1 ho with ⟨v, hv, rfl⟩
    exact h0 v hv
  · rw [he1, validVals_map]
    intro x hx
    rcases List.mem_map.1 hx with ⟨y, _, h⟩
    simpa using h.symm
  · intro i
    rw [he1, List.getElem?_map]
    cases hcase : (sanitize_array l1)[i]? with
    | none => simp
    | some o => cases o <;> simp

theorem spec_C4_witness :
    (∀ v ∈ [Val.nan, Val.posInf], sanitizeVal v = none)
    ∧ validVals (sanitize_array [Val.fin 5, Val.nan, Val.fin 5]) ≠ []
    ∧ (∀ x ∈ validVals (sanitize_array [Val.fin 5, Val.nan, Val.fin 5]), x = 5)
    ∧ minmax_normalize [Val.nan, Val.posInf] = sanitize_array [Val.nan, Val.posInf]
    ∧ (∀ x ∈ validVals (minmax_normalize [Val.fin 5, Val.nan, Val.fin 5]), x = 0) :=
  ⟨by decide, by decide, by decide,
   (spec_C4 [Val.nan, Val.posInf] [Val.fin 5, Val.nan, Val.fin 5] 5
     (by decide) (by decide) (by decide)).1.1,
   (spec_C4 [Val.nan, Val.posInf] [Val.fin 5, Val.nan, Val.fin 5] 5
     (by decide) (by decide) (by decide)).2.1⟩

theorem minmaxCore_map_rescale {a : List (Option ℚ)} {mn mx : ℚ}
    (hv : validVals a ≠ []) (hmn : listMin (validVals a) = mn)
    (hmx : listMax (validVals a) = mx) (hlt : mn < mx) :
    minmaxCore (a.map (Option.map fun x => (x - mn) / (mx - mn))) =
      a.map (Option.map fun x => (x - mn) / (mx - mn)) := by
  have hd : (0 : ℚ) < mx - mn := sub_pos.2 hlt
  have hmono : Monotone fun x : ℚ => (x - mn) / (mx - mn) := rescale_monotone hlt
  have hvr : validVals (a.map (Option.map fun x => (x - mn) / (mx - mn)))
      = (validVals a).map fun x => (x - mn) / (mx - mn) := validVals_map _ a
  have hner : validVals (a.map (Option.map fun x => (x - mn) / (mx - mn))) ≠ [] := by
    rw [hvr]
    intro h
    exact hv (List.map_eq_nil_iff.1 h)
  have hmn' : listMin (validVals (a.map (Option.map fun x => (x - mn) / (mx - mn)))) = 0 := by
    rw [hvr, listMin_map hmono hv, hmn, sub_self, zero_div]
  have hmx' : listMax (validVals (a.map (Option.map fun x => (x - mn) / (mx - mn)))) = 1 := by
    rw [hvr, listMax_map hmono hv, hmx, div_self (ne_of_gt hd)]
  have hne' : listMax (validVals (a.map (Option.map fun x => (x - mn) / (mx - mn))))
      ≠ listMin (validVals (a.map (Option.map fun x => (x - mn) / (mx - mn)))) := by
    rw [hmn', hmx']
    exact one_ne_zero
  rw [minmaxCore_of_ne hner hne', hmn', hmx', List.map_map]
  have hcomp : Option.map (fun x : ℚ => (x - 0) / (1 - 0))
      ∘ Option.map (fun x : ℚ => (x - mn) / (mx - mn))
      = Option.map fun x : ℚ => (x - mn) / (mx - mn) := by
    funext o
    cases o with
    | none => rfl
    | some x => simp
  rw [hcomp]

theorem minmaxCore_idem (a : List (Option ℚ)) : minmaxCore (minmaxCore a) = minmaxCore a := by
  by_cases hv : validVals a = []
  · rw [minmaxCore_of_empty hv, minmaxCore_of_empty hv]
  · by_cases he : listMax (validVals a) = listMin (validVals a)
    · rw [minmaxCore_of_const hv he]
      have hvr : validVals (a.map (Option.map fun _ => (0 : ℚ)))
          = (validVals a).map fun _ => (0 : ℚ) := validVals_map _ a
      have hne' : validVals (a.map (Option.map fun _ => (0 : ℚ))) ≠ [] := by
        rw [hvr]
        intro h
        exact hv (List.map_eq_nil_iff.1 h)
      have hall : ∀ x ∈ validVals (a.map (Option.map fun _ => (0 : ℚ))), x = 0 := by
        rw [hvr]
        intro x hx
        rcases List.mem_map.1 hx with ⟨y, _, h⟩
        simpa using h.symm
      have he' : listMax (validVals (a.map (Option.map fun _ => (0 : ℚ))))
          = listMin (validVals (a.map (Option.map fun _ => (0 : ℚ)))) := by
        rw [listMax_of_all_eq hne' hall, listMin_of_all_eq hne' hall]
      rw [minmaxCore_of_const hne' he', List.map_map]
      have hcomp : Option.map (fun _ : ℚ => (0 : ℚ)) ∘ Option.map (fun _ : ℚ => (0 : ℚ))
          = Option.map fun _ : ℚ => (0 : ℚ) := by
        funext o
        cases o <;> rfl
      rw [hcomp]
    · have hlt : listMin (validVals a) < listMax (validVals a) :=
        lt_of_le_of_ne (listMin_le_listMax hv) (Ne.symm he)
      rw [minmaxCore_of_ne hv he]
      exact minmaxCore_map_rescale hv rfl rfl hlt

/-- C9: `minmax_normalize` is idempotent — re-normalizing its own output
(re-embedded as a float array) returns that output unchanged. -/
theorem spec_C9 (l : List Val) :
    minmax_normalize ((minmax_normalize l).map optToVal) = minmax_normalize l := by
  rw [minmax_normalize, minmax_normalize, sanitize_array_optToVal]
  exact minmaxCore_idem (sanitize_array l)

/-- C6: the length-fixup step returns a column of length exactly `N`,
padding every position past the upstream result with the missing marker
and copying every position inside it. -/
theorem spec_C6 (N : ℕ) (v : List (Option ℚ)) :
    (fixLength N v).length = N
    ∧ (∀ i, i < N → v.length ≤ i → (fixLength N v)[i]? = some none)
    ∧ (∀ i, i < N → i < v.length → (fixLength N v)[i]? = v[i]?) := by
  refine ⟨length_fixLength N v, ?_, ?_⟩
  · intro i hiN hvi
    have hne : v.length ≠ N := by
      intro h
      rw [h] at hvi
      exact Nat.lt_irrefl N (Nat.lt_of_le_of_lt hvi hiN)
    have hm : min v.length N = v.length :=
      Nat.min_eq_left (Nat.le_of_lt (Nat.lt_of_le_of_lt hvi hiN))
    rw [fixLength, if_neg hne, hm, List.take_length,
      List.getElem?_append_right hvi, List.getElem?_replicate, if_pos (by omega)]
  · intro i hiN hiv
    by_cases h : v.length = N
    · rw [fixLength, if_pos h]
    · have hm : i < min v.length N := lt_min hiv hiN
      rw [fixLength, if_neg h,
        List.getElem?_append_left (by simp [List.length_take]; omega)]
      exact List.getElem?_take_of_lt hm

theorem spec_C6_witness :
    (fixLength 4 [some (1 : ℚ), none]).length = 4
    ∧ (fixLength 4 [some (1 : ℚ), none])[3]? = some none
    ∧ (fixLength 4 [some (1 : ℚ), none])[0]? = [some (1 : ℚ), none][0]? :=
  ⟨(spec_C6 4 [some 1, none]).1,
   (spec_C6 4 [some 1, none]).2.1 3 (by decide) (by decide),
   (spec_C6 4 [some 1, none]).2.2 0 (by decide) (by decide)⟩

/-- C7: `sanitize_array` keeps the length, replaces every infinity
(positive or negative) by the missing marker, keeps every finite entry
unchanged, and keeps every already-missing (NaN) entry missing. -/
theorem spec_C7 (l : List Val) :
    (sanitize_array l).length = l.length
    ∧ (∀ (i : ℕ) (q : ℚ), l[i]? = some (Val.fin q) → (sanitize_array l)[i]? = some (some q))
    ∧ (∀ i : ℕ, l[i]? = some Val.posInf → (sanitize_array l)[i]? = some none)
    ∧ (∀ i : ℕ, l[i]? = some Val.negInf → (sanitize_array l)[i]? = some none)
    ∧ (∀ i : ℕ, l[i]? = some Val.nan → (sanitize_array l)[i]? = some none) := by
  refine ⟨length_sanitize_array l, ?_, ?_, ?_, ?_⟩
  · intro i q hi
    rw [sanitize_array, List.getElem?_map, hi]
    rfl
  · intro i hi
    rw [sanitize_array, List.getElem?_map, hi]
    rfl
  · intro i hi
    rw [sanitize_array, List.getElem?_map, hi]
    rfl
  · intro i hi
    rw [sanitize_array, List.getElem?_map, hi]
    rfl

theorem spec_C7_witness :
    [Val.fin 3, Val.posInf, Val.negInf, Val.nan][0]? = some (Val.fin 3)
    ∧ (sanitize_array [Val.fin 3, Val.posInf, Val.negInf, Val.nan])[0]? = some (some 3)
    ∧ (sanitize_array [Val.fin 3, Val.posInf, Val.negInf, Val.nan])[1]? = some none
    ∧ (sanitize_array [Val.fin 3, Val.posInf, Val.negInf, Val.nan])[3]? = some none :=
  ⟨by decide,
   (spec_C7 [Val.fin 3, Val.posInf, Val.negInf, Val.nan]).2.1 0 3 (by decide),
   (spec_C7 [Val.fin 3, Val.posInf, Val.negInf, Val.nan]).2.2.1 1 (by decide),
   (spec_C7 [Val.fin 3, Val.posInf, Val.negInf, Val.nan]).2.2.2.2 3 (by decide)⟩

-- ### Lemmas about the per-component runner

theorem mem_component_vids {comp : List ℕ} {c i : ℕ} :
    i ∈ component_vids comp c ↔ i < comp.length ∧ comp.getD i 0 = c := by
  simp [component_vids, List.mem_filter, List.mem_range]

theorem component_vids_nodup (comp : List ℕ) (c : ℕ) : (component_vids comp c).Nodup :=
  (List.nodup_range comp.length).filter _

theorem le_foldr_max {l : List ℕ} {x : ℕ} (h : x ∈ l) : x ≤ l.foldr max 0 := by
  induction l with
  | nil => cases h
  | cons y ys ih =>
      rcases List.mem_cons.1 h with rfl | h
      · exact le_max_left _ _
      · exact le_trans (ih h) (le_max_right _ _)

theorem mem_uniqLabels {comp : List ℕ} {c : ℕ} : c ∈ uniqLabels comp ↔ c ∈ comp := by
  simp only [uniqLabels, List.mem_filter, List.mem_range, decide_eq_true_eq]
  exact ⟨fun h => h.2, fun h => ⟨Nat.lt_succ_of_le (le_foldr_max h), h⟩⟩

theorem uniqLabels_nodup (comp : List ℕ) : (uniqLabels comp).Nodup :=
  (List.nodup_range _).filter _

theorem length_writeProp (g : ℕ → Val) (vids : List ℕ) (arr : List Val) :
    (writeProp g vids arr).length = arr.length := by
  induction vids generalizing arr with
  | nil => rfl
  | cons v vs ih =>
      have hstep : writeProp g (v :: vs) arr = writeProp g vs (arr.set v (g v)) := rfl
      rw [hstep, ih, List.length_set]

theorem length_writeSeq (tmp : List Val) (k : ℕ) (vids : List ℕ) (arr : List Val) :
    (writeSeq tmp k vids arr).length = arr.length := by
  induction vids generalizing k arr with
  | nil => rfl
  | cons v vs ih =>
      rw [writeSeq, ih]
      split
      · exact List.length_set _ _ _
      · rfl

theorem length_compStep (comp : List ℕ) (f : ℕ → CompResult) (arr : List Val) (c : ℕ) :
    (compStep comp f arr c).length = arr.length := by
  unfold compStep
  split
  · rfl
  · split
    · rfl
    · exact length_writeProp _ _ _
    · exact length_writeSeq _ _ _ _

theorem length_foldl_compStep (comp : List ℕ) (f : ℕ → CompResult) (L : List ℕ)
    (arr : List Val) : (L.foldl (compStep comp f) arr).length = arr.length := by
  induction L generalizing arr with
  | nil => rfl
  | cons c cs ih => rw [List.foldl_cons, ih, length_compStep]

theorem length_metric_per_component_mapped (comp : List ℕ) (f : ℕ → CompResult) :
    (metric_per_component_mapped comp f).length = comp.length := by
  unfold metric_per_component_mapped
  rw [length_foldl_compStep, List.length_replicate]

theorem writeProp_getElem?_not_mem {g : ℕ → Val} {vids : List ℕ} {arr : List Val} {i : ℕ}
    (hi : i ∉ vids) : (writeProp g vids arr)[i]? = arr[i]? := by
  induction vids generalizing arr with
  | nil => rfl
  | cons v vs ih =>
      have hne : v ≠ i := fun h => hi (h ▸ List.mem_cons_self v vs)
      have hvs : i ∉ vs := fun h => hi (List.mem_cons_of_mem v h)
      have hstep : writeProp g (v :: vs) arr = writeProp g vs (arr.set v (g v)) := rfl
      rw [hstep, ih hvs, List.getElem?_set_ne hne]

theorem writeSeq_getElem?_not_mem {tmp : List Val} {k : ℕ} {vids : List ℕ} {arr : List Val}
    {i : ℕ} (hi : i ∉ vids) : (writeSeq tmp k vids arr)[i]? = arr[i]? := by
  induction vids generalizing k arr with
  | nil => rfl
  | cons v vs ih =>
      have hne : v ≠ i := fun h => hi (h ▸ List.mem_cons_self v vs)
      have hvs : i ∉ vs := fun h => hi (List.mem_cons_of_mem v h)
      rw [writeSeq, ih hvs]
      split
      · exact List.getElem?_set_ne hne
      · rfl

theorem writeProp_getElem?_mem {g : ℕ → Val} {vids : List ℕ} {arr : List Val} {i : ℕ}
    (hn : vids.Nodup) (hi : i ∈ vids) (hlen : i < arr.length) :
    (writeProp g vids arr)[i]? = some (g i) := by
  induction vids generalizing arr with
  | nil => cases hi
  | cons v vs ih =>
      have hstep : writeProp g (v :: vs) arr = writeProp g vs (arr.set v (g v)) := rfl
      rcases List.mem_cons.1 hi with rfl | hmem
      · have hnvs : i ∉ vs := (List.nodup_cons.1 hn).1
        rw [hstep, writeProp_getElem?_not_mem hnvs, List.getElem?_set_self hlen]
      · rw [hstep, ih (List.nodup_cons.1 hn).2 hmem (by rw [List.length_set]; exact hlen)]

theorem writeSeq_getElem?_mem {tmp : List Val} {i : ℕ} :
    ∀ (vids : List ℕ) (k : ℕ) (arr : List Val), vids.Nodup → i ∈ vids → i < arr.length →
    (writeSeq tmp k vids arr)[i]? =
      if k + vids.indexOf i < tmp.length then some (tmp.getD (k + vids.indexOf i) Val.nan)
      else arr[i]? := by
  intro vids
  induction vids with
  | nil => intro k arr _ hi _; cases hi
  | cons v vs ih =>
      intro k arr hn hi hlen
      by_cases hiv : i = v
      · subst hiv
        have hnvs : i ∉ vs := (List.nodup_cons.1 hn).1
        rw [writeSeq, writeSeq_getElem?_not_mem hnvs, List.indexOf_cons_self, Nat.add_zero]
        by_cases hk : k < tmp.length
        · rw [if_pos hk, if_pos hk, List.getElem?_set_self hlen]
        · rw [if_neg hk, if_neg hk]
      · have hmem : i ∈ vs := (List.mem_cons.1 hi).resolve_left hiv
        have hvne : v ≠ i := fun h => hiv h.symm
        have hlen' : i < (if k < tmp.length then arr.set v (tmp.getD k Val.nan) else arr).length := by
          split
          · rw [List.length_set]; exact hlen
          · exact hlen
        rw [writeSeq, ih (k + 1) _ (List.nodup_cons.1 hn).2 hmem hlen',
          List.indexOf_cons_ne _ hvne]
        have harr' : (if k < tmp.length then arr.set v (tmp.getD k Val.nan) else arr)[i]?
            = arr[i]? := by
          split
          · exact List.getElem?_set_ne hvne
          · rfl
        have hadd : k + 1 + vs.indexOf i = k + Nat.succ (vs.indexOf i) := by omega
        rw [harr', hadd]

theorem compStep_getElem? (comp : List ℕ) (f : ℕ → CompResult) (arr : List Val) (c i : ℕ)
    (hlen : arr.length = comp.length) :
    (compStep comp f arr c)[i]? =
      if i ∈ component_vids comp c then
        match f c with
        | .failure => arr[i]?
        | .prop g => some (g i)
        | .seq tmp =>
            if (component_vids comp c).indexOf i < tmp.length then
              some (tmp.getD ((component_vids comp c).indexOf i) Val.nan)
            else arr[i]?
      else arr[i]? := by
  by_cases hmem : i ∈ component_vids comp c
  · rw [if_pos hmem]
    have hiarr : i < arr.length := by
      rw [hlen]
      exact (mem_component_vids.1 hmem).1
    have hvne : component_vids comp c ≠ [] := fun h => by
      rw [h] at hmem
      exact absurd hmem (List.not_mem_nil i)
    unfold compStep
    rw [if_neg hvne]
    cases hfc : f c with
    | failure => rfl
    | prop g => exact writeProp_getElem?_mem (component_vids_nodup comp c) hmem hiarr
    | seq tmp =>
        have h := @writeSeq_getElem?_mem tmp i (component_vids comp c) 0 arr
          (component_vids_nodup comp c) hmem hiarr
        simpa using h
  · rw [if_neg hmem]
    unfold compStep
    split
    · rfl
    · cases hfc : f c with
      | failure => rfl
      | prop g => exact writeProp_getElem?_not_mem hmem
      | seq tmp => exact writeSeq_getElem?_not_mem hmem

theorem foldl_compStep_not_touched (comp : List ℕ) (f : ℕ → CompResult) (i : ℕ) :
    ∀ (L : List ℕ) (arr : List Val), arr.length = comp.length →
    (∀ c' ∈ L, i ∉ component_vids comp c') →
    (L.foldl (compStep comp f) arr)[i]? = arr[i]? := by
  intro L
  induction L with
  | nil => intro arr _ _; rfl
  | cons c cs ih =>
      intro arr hlen hL
      rw [List.foldl_cons,
        ih _ (by rw [length_compStep]; exact hlen) fun c' h => hL c' (List.mem_cons_of_mem c h),
        compStep_getElem? comp f arr c i hlen, if_neg (hL c (List.mem_cons_self c cs))]

theorem runner_getElem?_agree (comp : List ℕ) (f f' : ℕ → CompResult) (i : ℕ)
    (h : ∀ c, i ∈ component_vids comp c → f c = f' c) :
    (metric_per_component_mapped comp f)[i]? = (metric_per_component_mapped comp f')[i]? := by
  unfold metric_per_component_mapped
  have main : ∀ (L : List ℕ) (a a' : List Val), a.length = comp.length →
      a'.length = comp.length → a[i]? = a'[i]? →
      (L.foldl (compStep comp f) a)[i]? = (L.foldl (compStep comp f') a')[i]? := by
    intro L
    induction L with
    | nil => intro a a' _ _ hag; exact hag
    | cons c cs ih =>
        intro a a' hla hla' hag
        rw [List.foldl_cons, List.foldl_cons]
        apply ih _ _ (by rw [length_compStep]; exact hla)
          (by rw [length_compStep]; exact hla')
        rw [compStep_getElem? comp f a c i hla, compStep_getElem? comp f' a' c i hla']
        by_cases hmem : i ∈ component_vids comp c
        · rw [if_pos hmem, if_pos hmem, h c hmem]
          cases f' c with
          | failure => exact hag
          | prop g => rfl
          | seq tmp => rw [hag]
        · rw [if_neg hmem, if_neg hmem]
          exact hag
  exact main _ _ _ (List.length_replicate _ _) (List.length_replicate _ _) rfl

theorem runner_getElem?_mem (comp : List ℕ) (f : ℕ → CompResult) {c i : ℕ}
    (hi : i ∈ component_vids comp c) :
    (metric_per_component_mapped comp f)[i]? =
      match f c with
      | .failure => some Val.nan
      | .prop g => some (g i)
      | .seq tmp =>
          if (component_vids comp c).indexOf i < tmp.length then
            some (tmp.getD ((component_vids comp c).indexOf i) Val.nan)
          else some Val.nan := by
  obtain ⟨hilen, hic⟩ := mem_component_vids.1 hi
  have hcc : c ∈ comp := by
    rw [← hic, List.getD_eq_getElem?_getD, List.getElem?_eq_getElem hilen]
    exact List.getElem_mem hilen
  obtain ⟨L1, L2, hsplit⟩ := List.append_of_mem (mem_uniqLabels.2 hcc)
  have hnd := uniqLabels_nodup comp
  rw [hsplit] at hnd
  have hdisj := List.disjoint_of_nodup_append hnd
  have hcnotL1 : c ∉ L1 := fun h => hdisj h (List.mem_cons_self c L2)
  have hcnotL2 : c ∉ L2 := (List.nodup_cons.1 (List.nodup_append.1 hnd).2.1).1
  have honly : ∀ c', i ∈ component_vids comp c' → c' = c := by
    intro c' h'
    rw [← (mem_component_vids.1 h').2, hic]
  have hL1 : ∀ c' ∈ L1, i ∉ component_vids comp c' := by
    intro c' h1 h2
    exact hcnotL1 (honly c' h2 ▸ h1)
  have hL2 : ∀ c' ∈ L2, i ∉ component_vids comp c' := by
    intro c' h1 h2
    exact hcnotL2 (honly c' h2 ▸ h1)
  have hlen0 : (List.replicate comp.length Val.nan).length = comp.length :=
    List.length_replicate _ _
  have h1 : (L1.foldl (compStep comp f) (List.replicate comp.length Val.nan))[i]?
      = some Val.nan := by
    rw [foldl_compStep_not_touched comp f i L1 _ hlen0 hL1]
    exact List.getElem?_replicate_of_lt hilen
  have hlen1 : (L1.foldl (compStep comp f) (List.replicate comp.length Val.nan)).length
      = comp.length := by
    rw [length_foldl_compStep, List.length_replicate]
  unfold metric_per_component_mapped
  rw [hsplit, List.foldl_append, List.foldl_cons,
    foldl_compStep_not_touched comp f i L2 _ (by rw [length_compStep]; exact hlen1) hL2,
    compStep_getElem? comp f _ c i hlen1, if_pos hi]
  cases f c with
  | failure => exact h1
  | prop g => rfl
  | seq tmp => rw [h1]

/-- C2: a failed (exception / `None` / empty-result) invocation on one
component leaves exactly that component's vertices at the missing marker,
vertices of other components are unaffected by what happened on the failed
component, every metric's column depends only on that metric's own algorithm
outcomes (so any failure — total or per-component — of any other metric's
invocations leaves it unaffected), and `compute_and_save_metrics` always
returns a mapping containing every requested metric column. -/
theorem spec_C2 (comp : List ℕ) (f f' : ℕ → CompResult) (c : ℕ)
    (hfail : f c = CompResult.failure ∨ f c = CompResult.seq [])
    (hagree : ∀ c', c' ≠ c → f c' = f' c') :
    (∀ i : ℕ, i < comp.length → comp.getD i 0 = c →
      (metric_per_component_mapped comp f)[i]? = some Val.nan)
    ∧ (∀ i : ℕ, comp.getD i 0 ≠ c →
      (metric_per_component_mapped comp f)[i]? = (metric_per_component_mapped comp f')[i]?)
    ∧ (∀ (g : Graph) (normalize : Bool) (o o' : AlgOutcomes),
      (o.pagerank = o'.pagerank →
        (compute_and_save_metrics g normalize o).lookup "pagerank"
          = (compute_and_save_metrics g normalize o').lookup "pagerank")
      ∧ (o.betweenness = o'.betweenness →
        (compute_and_save_metrics g normalize o).lookup "betweenness"
          = (compute_and_save_metrics g normalize o').lookup "betweenness")
      ∧ (o.closeness = o'.closeness →
        (compute_and_save_metrics g normalize o).lookup "closeness"
          = (compute_and_save_metrics g normalize o').lookup "closeness")
      ∧ (o.eigenvector = o'.eigenvector →
        (compute_and_save_metrics g normalize o).lookup "eigenvector"
          = (compute_and_save_metrics g normalize o').lookup "eigenvector")
      ∧ (o.katz = o'.katz →
        (compute_and_save_metrics g normalize o).lookup "katz"
          = (compute_and_save_metrics g normalize o').lookup "katz")
      ∧ (o.hits = o'.hits →
        (compute_and_save_metrics g normalize o).lookup "hits_authority"
          = (compute_and_save_metrics g normalize o').lookup "hits_authority"
        ∧ (compute_and_save_metrics g normalize o).lookup "hits_hub"
          = (compute_and_save_metrics g normalize o').lookup "hits_hub")
      ∧ (o.eigentrust = o'.eigentrust →
        (compute_and_save_metrics g normalize o).lookup "eigentrust"
          = (compute_and_save_metrics g normalize o').lookup "eigentrust")
      ∧ (o.trust_transitivity = o'.trust_transitivity →
        (compute_and_save_metrics g normalize o).lookup "trust_transitivity"
          = (compute_and_save_metrics g normalize o').lookup "trust_transitivity"))
    ∧ (∀ (g : Graph) (normalize : Bool) (o : AlgOutcomes),
      (compute_and_save_metrics g normalize o).map Prod.fst = metricNames) := by
  refine ⟨?_, ?_, ?_, ?_⟩
  · intro i hilen hic
    have hi : i ∈ component_vids comp c := mem_component_vids.2 ⟨hilen, hic⟩
    rw [runner_getElem?_mem comp f hi]
    rcases hfail with h | h
    · rw [h]
    · rw [h]
      simp
  · intro i hne
    apply runner_getElem?_agree
    intro c' hmem
    apply hagree
    intro h
    subst h
    exact hne (mem_component_vids.1 hmem).2
  · intro g normalize o o'
    refine ⟨fun h => ?_, fun h => ?_, fun h => ?_, fun h => ?_, fun h => ?_,
      fun h => ⟨?_, ?_⟩, fun h => ?_, fun h => ?_⟩
    · show some (finalizeCol g.numVertices normalize (directCol g.numVertices o.pagerank))
        = some (finalizeCol g.numVertices normalize (directCol g.numVertices o'.pagerank))
      rw [h]
    · show some (finalizeCol g.numVertices normalize (directCol g.numVertices o.betweenness))
        = some (finalizeCol g.numVertices normalize (directCol g.numVertices o'.betweenness))
      rw [h]
    · show some (finalizeCol g.numVertices normalize (directCol g.numVertices o.closeness))
        = some (finalizeCol g.numVertices normalize (directCol g.numVertices o'.closeness))
      rw [h]
    · show some (finalizeCol g.numVertices normalize (runnerCol g.comp o.eigenvector))
        = some (finalizeCol g.numVertices normalize (runnerCol g.comp o'.eigenvector))
      rw [h]
    · show some (finalizeCol g.numVertices normalize (runnerCol g.comp o.katz))
        = some (finalizeCol g.numVertices normalize (runnerCol g.comp o'.katz))
      rw [h]
    · show some (finalizeCol g.numVertices normalize
          ((hitsAuthority g.numVertices o.hits).map optToVal))
        = some (finalizeCol g.numVertices normalize
          ((hitsAuthority g.numVertices o'.hits).map optToVal))
      rw [h]
    · show some (finalizeCol g.numVertices normalize
          ((hitsHub g.numVertices o.hits).map optToVal))
        = some (finalizeCol g.numVertices normalize
          ((hitsHub g.numVertices o'.hits).map optToVal))
      rw [h]
    · show some (finalizeCol g.numVertices normalize (runnerCol g.comp o.eigentrust))
        = some (finalizeCol g.numVertices normalize (runnerCol g.comp o'.eigentrust))
      rw [h]
    · show some (finalizeCol g.numVertices normalize (runnerCol g.comp o.trust_transitivity))
        = some (finalizeCol g.numVertices normalize (runnerCol g.comp o'.trust_transitivity))
      rw [h]
  · intro g normalize o
    rfl

theorem spec_C2_witness :
    (exampleFail 1 = CompResult.failure ∨ exampleFail 1 = CompResult.seq [])
    ∧ (metric_per_component_mapped [0, 0, 1, 1] exampleFail)[2]? = some Val.nan
    ∧ (metric_per_component_mapped [0, 0, 1, 1] exampleFail)[0]?
        = (metric_per_component_mapped [0, 0, 1, 1] exampleFail')[0]?
    ∧ (compute_and_save_metrics ⟨[0, 0]⟩ true hitsOutcomes).lookup "pagerank"
        = (compute_and_save_metrics ⟨[0, 0]⟩ true allFailOutcomes).lookup "pagerank"
    ∧ (compute_and_save_metrics ⟨[0, 0]⟩ true hitsOutcomes).lookup "eigentrust"
        = (compute_and_save_metrics ⟨[0, 0]⟩ true allFailOutcomes).lookup "eigentrust"
    ∧ (compute_and_save_metrics ⟨[]⟩ true allFailOutcomes).map Prod.fst = metricNames :=
  ⟨Or.inl rfl,
   (spec_C2 [0, 0, 1, 1] exampleFail exampleFail' 1 (Or.inl rfl)
     fun c' h => (Function.update_noteq h _ exampleFail).symm).1 2 (by decide) (by decide),
   (spec_C2 [0, 0, 1, 1] exampleFail exampleFail' 1 (Or.inl rfl)
     fun c' h => (Function.update_noteq h _ exampleFail).symm).2.1 0 (by decide),
   ((spec_C2 [0, 0, 1, 1] exampleFail exampleFail' 1 (Or.inl rfl)
     fun c' h => (Function.update_noteq h _ exampleFail).symm).2.2.1 ⟨[0, 0]⟩ true
     hitsOutcomes allFailOutcomes).1 rfl,
   ((spec_C2 [0, 0, 1, 1] exampleFail exampleFail' 1 (Or.inl rfl)
     fun c' h => (Function.update_noteq h _ exampleFail).symm).2.2.1 ⟨[0, 0]⟩ true
     hitsOutcomes allFailOutcomes).2.2.2.2.2.2.1 rfl,
   (spec_C2 [0, 0, 1, 1] exampleFail exampleFail' 1 (Or.inl rfl)
     fun c' h => (Function.update_noteq h _ exampleFail).symm).2.2.2 ⟨[]⟩ true allFailOutcomes⟩

/-- C10: when a component's invocation yields an unstructured sequence, the
`j`-th vertex of the component receives the `j`-th sequence entry when the
sequence is long enough and stays at the missing marker otherwise, and entries
of the sequence beyond the component's vertex count are ignored entirely (no
out-of-range access: truncating them does not change the result). -/
theorem spec_C10 (comp : List ℕ) (f : ℕ → CompResult) (c : ℕ) (tmp : List Val)
    (hc : f c = CompResult.seq tmp) :
    (∀ j : ℕ, j < (component_vids comp c).length →
      (metric_per_component_mapped comp f)[(component_vids comp c).getD j 0]? =
        if j < tmp.length then some (tmp.getD j Val.nan) else some Val.nan)
    ∧ metric_per_component_mapped comp
        (Function.update f c (CompResult.seq (tmp.take (component_vids comp c).length)))
      = metric_per_component_mapped comp f := by
  constructor
  · intro j hj
    have hmem : (component_vids comp c).getD j 0 ∈ component_vids comp c := by
      rw [List.getD_eq_getElem?_getD, List.getElem?_eq_getElem hj]
      exact List.getElem_mem hj
    have hidx : (component_vids comp c).indexOf ((component_vids comp c).getD j 0) = j := by
      rw [List.getD_eq_getElem?_getD, List.getElem?_eq_getElem hj]
      exact List.indexOf_getElem (component_vids_nodup comp c) j hj
    rw [runner_getElem?_mem comp f hmem, hc, hidx]
  · apply List.ext_getElem?
    intro i
    by_cases hmem : i ∈ component_vids comp c
    · rw [runner_getElem?_mem comp _ hmem, runner_getElem?_mem comp f hmem, hc,
        Function.update_same]
      dsimp only
      have hidxlt : (component_vids comp c).indexOf i < (component_vids comp c).length :=
        List.indexOf_lt_length.2 hmem
      by_cases hlt : (component_vids comp c).indexOf i < tmp.length
      · rw [if_pos hlt, if_pos (by rw [List.length_take]; omega)]
        congr 1
        rw [List.getD_eq_getElem?_getD, List.getD_eq_getElem?_getD,
          List.getElem?_take_of_lt hidxlt]
      · rw [if_neg hlt, if_neg (by rw [List.length_take]; omega)]
    · apply runner_getElem?_agree
      intro c' hmem'
      have hne : c' ≠ c := fun h => hmem (h ▸ hmem')
      exact Function.update_noteq hne _ f

theorem spec_C10_witness :
    exampleSeq 0 = CompResult.seq [Val.fin 1, Val.fin 2]
    ∧ (metric_per_component_mapped [0, 0, 0] exampleSeq)[(component_vids [0, 0, 0] 0).getD 0 0]?
        = some (Val.fin 1)
    ∧ (metric_per_component_mapped [0, 0, 0] exampleSeq)[(component_vids [0, 0, 0] 0).getD 2 0]?
        = some Val.nan :=
  ⟨rfl,
   by
     have h := (spec_C10 [0, 0, 0] exampleSeq 0 [Val.fin 1, Val.fin 2] rfl).1 0 (by decide)
     simpa using h,
   by
     have h := (spec_C10 [0, 0, 0] exampleSeq 0 [Val.fin 1, Val.fin 2] rfl).1 2 (by decide)
     simpa using h⟩

/-- C1: for every graph, every algorithm behavior and every requested metric
name, the mapping returned by `compute_and_save_metrics` contains a column for
that metric of length exactly `N`, the vertex count — including `N = 0`. -/
theorem spec_C1 (g : Graph) (normalize : Bool) (o : AlgOutcomes) (name : String)
    (h : name ∈ metricNames) :
    ∃ col, (compute_and_save_metrics g normalize o).lookup name = some col
      ∧ col.length = g.numVertices := by
  have hlen : ∀ col : List Val, (finalizeCol g.numVertices normalize col).length
      = g.numVertices := by
    intro col
    unfold finalizeCol
    split
    · rw [length_minmax_normalize, List.length_map, length_fixLength]
    · exact length_fixLength _ _
  simp only [metricNames, List.mem_cons, List.not_mem_nil, or_false] at h
  rcases h with rfl | rfl | rfl | rfl | rfl | rfl | rfl | rfl | rfl
  all_goals exact ⟨_, rfl, hlen _⟩

theorem spec_C1_witness :
    "pagerank" ∈ metricNames
    ∧ ∃ col, (compute_and_save_metrics ⟨[]⟩ true allFailOutcomes).lookup "pagerank" = some col
        ∧ col.length = Graph.numVertices ⟨[]⟩ :=
  ⟨List.mem_cons_self _ _,
   spec_C1 ⟨[]⟩ true allFailOutcomes "pagerank" (List.mem_cons_self _ _)⟩

/-- C5: when the hub/authority algorithm returns a pair of per-vertex arrays
on a 6-vertex graph, the run produces two distinct named metric columns,
`hits_authority` from the first array and `hits_hub` from the second, each of
length 6 and each independently min-max normalized. -/
theorem spec_C5 (g : Graph) (o : AlgOutcomes) (a b : List Val)
    (hg : g.numVertices = 6) (ha : a.length = 6) (hb : b.length = 6)
    (hh : o.hits = Except.ok (HitsRes.tup [HitsItem.arr a, HitsItem.arr b])) :
    ("hits_authority" : String) ≠ "hits_hub"
    ∧ (compute_and_save_metrics g true o).lookup "hits_authority"
        = some (minmax_normalize a)
    ∧ (compute_and_save_metrics g true o).lookup "hits_hub" = some (minmax_normalize b)
    ∧ (minmax_normalize a).length = 6 ∧ (minmax_normalize b).length = 6 := by
  have hauth : hitsAuthority g.numVertices o.hits = sanitize_array a := by
    rw [hh]
    rfl
  have hhub : hitsHub g.numVertices o.hits = sanitize_array b := by
    rw [hh]
    rfl
  have hcol : ∀ l : List Val, l.length = 6 →
      finalizeCol g.numVertices true ((sanitize_array l).map optToVal)
        = minmax_normalize l := by
    intro l hl
    unfold finalizeCol
    rw [if_pos rfl, sanitize_array_optToVal,
      fixLength_of_length_eq (by rw [length_sanitize_array, hl, hg]),
      minmax_normalize, minmax_normalize, sanitize_array_optToVal]
  have hlook1 : (compute_and_save_metrics g true o).lookup "hits_authority"
      = some (finalizeCol g.numVertices true
          ((hitsAuthority g.numVertices o.hits).map optToVal)) := rfl
  have hlook2 : (compute_and_save_metrics g true o).lookup "hits_hub"
      = some (finalizeCol g.numVertices true
          ((hitsHub g.numVertices o.hits).map optToVal)) := rfl
  refine ⟨by decide, ?_, ?_, ?_, ?_⟩
  · rw [hlook1, hauth, hcol a ha]
  · rw [hlook2, hhub, hcol b hb]
  · rw [length_minmax_normalize, ha]
  · rw [length_minmax_normalize, hb]

theorem spec_C5_witness :
    Graph.numVertices sixGraph = 6
    ∧ hitsA.length = 6
    ∧ hitsB.length = 6
    ∧ hitsOutcomes.hits = Except.ok (HitsRes.tup [HitsItem.arr hitsA, HitsItem.arr hitsB])
    ∧ (compute_and_save_metrics sixGraph true hitsOutcomes).lookup "hits_authority"
        = some (minmax_normalize hitsA)
    ∧ (compute_and_save_metrics sixGraph true hitsOutcomes).lookup "hits_hub"
        = some (minmax_normalize hitsB) :=
  ⟨rfl, rfl, rfl, rfl,
   (spec_C5 sixGraph hitsOutcomes hitsA hitsB rfl rfl rfl rfl).2.1,
   (spec_C5 sixGraph hitsOutcomes hitsA hitsB rfl rfl rfl rfl).2.2.1⟩

/-- C8: `trust_call` on an empty component returns an empty result without
invoking the trust-propagation algorithm (the result does not depend on the
algorithm at all), and on a non-empty component with no explicit source it
invokes the algorithm with the first vertex in iteration order as the source. -/
theorem spec_C8 :
    (∀ alg alg' : TrustTransitivity,
      trust_call [] alg = trust_call [] alg' ∧ trust_call [] alg = [])
    ∧ (∀ (v : ℕ) (rest : List ℕ) (alg : TrustTransitivity),
      alg.acceptsSource = true → trust_call (v :: rest) alg = alg.withSource v) := by
  constructor
  · intro alg alg'
    exact ⟨rfl, rfl⟩
  · intro v rest alg h
    simp [trust_call, h]

theorem spec_C8_witness :
    trustAlg.acceptsSource = true
    ∧ trust_call [] trustAlg = []
    ∧ trust_call [2, 5] trustAlg = trustAlg.withSource 2 :=
  ⟨rfl, (spec_C8.1 trustAlg trustAlg).2, spec_C8.2 2 [5] trustAlg rfl⟩
